import Mathlib

/-!
Verification development for the E2EE frame cryptor of
`src/room/track/ee2e.ts` (class `E2EEManager`).

The TypeScript class is shallowly embedded below: byte buffers become
`List Nat` (each element a byte value `< 256`), the JS `Map` of send
counters becomes an association list, and the `E2EEManager` instance
fields become a Lean structure threaded explicitly through the
operations.  The browser primitives used by the class
(`crypto.subtle` AES-GCM and PBKDF2, `Math.random`) are not part of
the repository; they are modelled as an idealized deterministic
authenticated cipher, an injective key-derivation record, and an
explicit `rand` argument respectively.
-/

/-- Big-endian value of a byte list: `beNat [a, b] = a * 256 + b`. -/
def beNat (l : List Nat) : Nat :=
  l.foldl (fun a b => 256 * a + b) 0

/-- Big-endian fold starting from an accumulator. -/
def beNatFrom (a : Nat) (l : List Nat) : Nat :=
  l.foldl (fun a b => 256 * a + b) a

theorem beNatFrom_eq (a : Nat) (l : List Nat) :
    beNatFrom a l = a * 256 ^ l.length + beNat l := by
  induction l generalizing a with
  | nil => simp [beNatFrom, beNat]
  | cons b t ih =>
    have h1 : beNatFrom a (b :: t) = beNatFrom (256 * a + b) t := rfl
    have h2 : beNat (b :: t) = beNatFrom b t := by
      simp [beNat, beNatFrom, List.foldl]
    rw [h1, ih, List.length_cons, h2, ih]
    ring

theorem beNat_cons (b : Nat) (l : List Nat) :
    beNat (b :: l) = b * 256 ^ l.length + beNat l := by
  have h2 : beNat (b :: l) = beNatFrom b l := by
    simp [beNat, beNatFrom, List.foldl]
  rw [h2, beNatFrom_eq]

theorem beNat_append (xs ys : List Nat) :
    beNat (xs ++ ys) = beNat xs * 256 ^ ys.length + beNat ys := by
  induction xs with
  | nil => simp [beNat]
  | cons b t ih =>
    rw [List.cons_append, beNat_cons, beNat_cons, ih, List.length_append]
    ring

/-- Write `n` as `w` big-endian bytes (truncating to the low `8*w` bits). -/
def natToBeW : Nat → Nat → List Nat
  | 0, _ => []
  | w + 1, n => natToBeW w (n / 256) ++ [n % 256]

theorem natToBeW_length (w n : Nat) : (natToBeW w n).length = w := by
  induction w generalizing n with
  | zero => rfl
  | succ w ih => simp [natToBeW, ih]

theorem beNat_natToBeW (w n : Nat) : beNat (natToBeW w n) = n % 256 ^ w := by
  induction w generalizing n with
  | zero => simp [natToBeW, beNat, Nat.mod_one]
  | succ w ih =>
    rw [natToBeW, beNat_append, ih]
    have hone : beNat [n % 256] = n % 256 := by simp [beNat]
    simp only [List.length_singleton, pow_one, hone, pow_succ]
    rw [mul_comm (256 ^ w) 256, Nat.mod_mul]
    ring

theorem natToBeW_inj {w a b : Nat} (ha : a < 256 ^ w) (hb : b < 256 ^ w)
    (h : natToBeW w a = natToBeW w b) : a = b := by
  have := congrArg beNat h
  rw [beNat_natToBeW, beNat_natToBeW, Nat.mod_eq_of_lt ha, Nat.mod_eq_of_lt hb] at this
  exact this

theorem natToBeW_lt (w n : Nat) : ∀ b ∈ natToBeW w n, b < 256 := by
  induction w generalizing n with
  | zero => simp [natToBeW]
  | succ w ih =>
    intro b hb
    rw [natToBeW, List.mem_append] at hb
    rcases hb with hb | hb
    · exact ih _ b hb
    · simp only [List.mem_singleton] at hb
      subst hb
      exact Nat.mod_lt _ (by norm_num)

/-- Big-endian `setUint32` byte image of a value (DataView default is
big-endian; the stored value is reduced modulo `2 ^ 32`). -/
def be32 (n : Nat) : List Nat :=
  [n / 16777216 % 256, n / 65536 % 256, n / 256 % 256, n % 256]

/-! ### Idealized model of the `crypto.subtle` primitives

AES-GCM and PBKDF2 live in the browser, not in this repository.  They
are modelled as a deterministic, perfectly authenticated cipher: the
ciphertext is the plaintext masked by a key/IV-dependent keystream,
followed by a 16-byte authentication tag that is an (essentially
injective) hash of the key, the IV, the additional data and the
ciphertext body, reduced modulo the odd constant `2 ^ 128 - 1` so that
any single-bit change in the authenticated data changes the tag. -/

/-- Model of a derived `CryptoKey`: PBKDF2(SHA-256, 1 iteration) applied
to the preshared base material with a one-byte salt.  The derivation is
deterministic and, in this idealized model, injective. -/
structure CryptoKey where
  base : List Nat
  salt : Nat
deriving DecidableEq, Repr

/-- Injective numeric image of a key, used by the idealized cipher. -/
def keyNat (k : CryptoKey) : Nat :=
  Nat.pair (beNat k.base) k.salt

/-- Keystream byte `i` for a key/IV pair. -/
def ksByte (k : CryptoKey) (iv : List Nat) (i : Nat) : Nat :=
  (keyNat k + beNat iv + i) % 256

/-- Mask a byte list with the keystream, starting at stream position `n`.
Masking is an involution (`Nat.xor` with the same byte twice). -/
def xorKs (k : CryptoKey) (iv : List Nat) : Nat → List Nat → List Nat
  | _, [] => []
  | n, b :: t => (b ^^^ ksByte k iv n) :: xorKs k iv (n + 1) t

theorem xorKs_length (k : CryptoKey) (iv : List Nat) (n : Nat) (l : List Nat) :
    (xorKs k iv n l).length = l.length := by
  induction l generalizing n with
  | nil => rfl
  | cons b t ih => simp [xorKs, ih]

theorem xorKs_xorKs (k : CryptoKey) (iv : List Nat) (n : Nat) (l : List Nat) :
    xorKs k iv n (xorKs k iv n l) = l := by
  induction l generalizing n with
  | nil => rfl
  | cons b t ih =>
    simp only [xorKs, ih, List.cons.injEq, and_true]
    rw [Nat.xor_assoc, Nat.xor_self, Nat.xor_zero]

theorem xorKs_lt (k : CryptoKey) (iv : List Nat) (n : Nat) (l : List Nat)
    (h : ∀ b ∈ l, b < 256) : ∀ b ∈ xorKs k iv n l, b < 256 := by
  induction l generalizing n with
  | nil => simp [xorKs]
  | cons b t ih =>
    intro x hx
    simp only [xorKs, List.mem_cons] at hx
    rcases hx with hx | hx
    · subst hx
      have hb : b < 256 := h b (List.mem_cons_self _ _)
      have hk : ksByte k iv n < 256 := Nat.mod_lt _ (by norm_num)
      calc b ^^^ ksByte k iv n < 2 ^ 8 := Nat.xor_lt_two_pow hb hk
        _ = 256 := by norm_num
    · exact ih (n + 1) (fun b hb => h b (List.mem_cons_of_mem _ hb)) x hx

/-- Modulus of the idealized authentication tag: odd, below `2 ^ 128`,
so a 16-byte tag holds it and no power of two is divisible by it. -/
def TAG_MODULUS : Nat := 2 ^ 128 - 1

/-- Idealized authentication tag value over key, IV, additional data and
ciphertext body. -/
def tagNat (k : CryptoKey) (iv ad body : List Nat) : Nat :=
  (keyNat k * 256 ^ (iv ++ ad ++ body).length + beNat (iv ++ ad ++ body)) % TAG_MODULUS

/-- Model of `crypto.subtle.encrypt({name: 'AES-GCM', iv, additionalData}, key, pt)`:
masked plaintext followed by the 16-byte tag. -/
def aeadEncrypt (k : CryptoKey) (iv ad pt : List Nat) : List Nat :=
  xorKs k iv 0 pt ++ natToBeW 16 (tagNat k iv ad (xorKs k iv 0 pt))

/-- Model of `crypto.subtle.decrypt`: checks the tag over the ciphertext
body and unmasks it; `none` models a rejected promise
(authentication failure). -/
def aeadDecrypt (k : CryptoKey) (iv ad ct : List Nat) : Option (List Nat) :=
  if ct.length < 16 then none
  else
    let body := ct.take (ct.length - 16)
    let tagB := ct.drop (ct.length - 16)
    if tagB = natToBeW 16 (tagNat k iv ad body) then some (xorKs k iv 0 body)
    else none

theorem aead_roundtrip (k : CryptoKey) (iv ad pt : List Nat) :
    aeadDecrypt k iv ad (aeadEncrypt k iv ad pt) = some pt := by
  unfold aeadDecrypt aeadEncrypt
  have hlen : (xorKs k iv 0 pt ++ natToBeW 16 (tagNat k iv ad (xorKs k iv 0 pt))).length
      = pt.length + 16 := by
    simp [List.length_append, xorKs_length, natToBeW_length]
  rw [hlen]
  have hnot : ¬ (pt.length + 16 < 16) := by omega
  rw [if_neg hnot]
  have hbl : pt.length + 16 - 16 = (xorKs k iv 0 pt).length := by
    simp [xorKs_length]
  rw [hbl, List.take_left, List.drop_left, if_pos rfl, xorKs_xorKs]

/-! ### List access helpers -/

theorem getD_append_right_gen {α : Type} (xs ys : List α) (d : α) (n : Nat)
    (h : xs.length ≤ n) : (xs ++ ys).getD n d = ys.getD (n - xs.length) d := by
  induction xs generalizing n with
  | nil => simp
  | cons x t ih =>
    cases n with
    | zero => simp at h
    | succ m =>
      simp only [List.cons_append, List.getD_cons_succ, List.length_cons]
      rw [ih m (by simpa using h)]
      simp [Nat.succ_sub_succ]

theorem getD_append_left_gen {α : Type} (xs ys : List α) (d : α) (n : Nat)
    (h : n < xs.length) : (xs ++ ys).getD n d = xs.getD n d := by
  induction xs generalizing n with
  | nil => simp at h
  | cons x t ih =>
    cases n with
    | zero => simp
    | succ m =>
      simp only [List.cons_append, List.getD_cons_succ]
      exact ih m (by simpa using h)

theorem set_append_right_gen {α : Type} (xs ys : List α) (v : α) (n : Nat)
    (h : xs.length ≤ n) : (xs ++ ys).set n v = xs ++ ys.set (n - xs.length) v := by
  induction xs generalizing n with
  | nil => simp
  | cons x t ih =>
    cases n with
    | zero => simp at h
    | succ m =>
      simp only [List.cons_append, List.set_cons_succ, List.length_cons]
      rw [ih m (by simpa using h)]
      simp [Nat.succ_sub_succ]

theorem set_append_left_gen {α : Type} (xs ys : List α) (v : α) (n : Nat)
    (h : n < xs.length) : (xs ++ ys).set n v = xs.set n v ++ ys := by
  induction xs generalizing n with
  | nil => simp at h
  | cons x t ih =>
    cases n with
    | zero => simp
    | succ m =>
      simp only [List.cons_append, List.set_cons_succ]
      rw [ih m (by simpa using h)]

theorem getD_set_self_gen {α : Type} (l : List α) (n : Nat) (v d : α)
    (h : n < l.length) : (l.set n v).getD n d = v := by
  induction l generalizing n with
  | nil => simp at h
  | cons x t ih =>
    cases n with
    | zero => simp
    | succ m =>
      simp only [List.set_cons_succ, List.getD_cons_succ]
      exact ih m (by simpa using h)

theorem getD_mem_gen {α : Type} (l : List α) (n : Nat) (d : α)
    (h : n < l.length) : l.getD n d ∈ l := by
  induction l generalizing n with
  | nil => simp at h
  | cons x t ih =>
    cases n with
    | zero => simp
    | succ m =>
      simp only [List.getD_cons_succ]
      exact List.mem_cons_of_mem _ (ih m (by simpa using h))

theorem eq_take_cons_drop {α : Type} (l : List α) (n : Nat) (d : α)
    (h : n < l.length) : l = l.take n ++ l.getD n d :: l.drop (n + 1) := by
  induction l generalizing n with
  | nil => simp at h
  | cons x t ih =>
    cases n with
    | zero => simp
    | succ m =>
      simp only [List.take_succ_cons, List.getD_cons_succ, List.drop_succ_cons,
        List.cons_append, List.cons.injEq, true_and]
      exact ih m (by simpa using h)

theorem set_eq_take_cons_drop {α : Type} (l : List α) (n : Nat) (v : α)
    (h : n < l.length) : l.set n v = l.take n ++ v :: l.drop (n + 1) := by
  induction l generalizing n with
  | nil => simp at h
  | cons x t ih =>
    cases n with
    | zero => simp
    | succ m =>
      simp only [List.set_cons_succ, List.take_succ_cons, List.drop_succ_cons,
        List.cons_append, List.cons.injEq, true_and]
      exact ih m (by simpa using h)

/-! ### Tamper detection for the idealized cipher -/

set_option maxRecDepth 4000 in
theorem xor_bit_cases : ∀ x : Nat, x < 256 → ∀ j : Nat, j < 8 →
    (x ^^^ 2 ^ j = x + 2 ^ j) ∨ (x = (x ^^^ 2 ^ j) + 2 ^ j) := by decide

theorem xor_two_pow_ne (x j : Nat) : x ^^^ 2 ^ j ≠ x := by
  intro h
  have h2 := congrArg (fun y => y ^^^ x) h
  simp only [Nat.xor_comm x (2 ^ j), Nat.xor_assoc, Nat.xor_self, Nat.xor_zero] at h2
  exact absurd h2 (Nat.pos_iff_ne_zero.mp (pow_pos (by norm_num) j))

theorem tag_modulus_coprime_two : Nat.Coprime TAG_MODULUS 2 := by decide

theorem tag_modulus_ne_one : TAG_MODULUS ≠ 1 := by decide

theorem tag_modulus_pos : 0 < TAG_MODULUS := by decide

theorem tagNat_lt (k : CryptoKey) (iv ad body : List Nat) :
    tagNat k iv ad body < 256 ^ 16 := by
  have h1 : tagNat k iv ad body < TAG_MODULUS := Nat.mod_lt _ tag_modulus_pos
  have h2 : TAG_MODULUS < 256 ^ 16 := by decide
  omega

theorem mod_add_pow_ne (Y D : Nat) (t : Nat) (hD : D = 2 ^ t) :
    (Y + D) % TAG_MODULUS ≠ Y % TAG_MODULUS := by
  intro h
  have hmod : Y ≡ Y + D [MOD TAG_MODULUS] := h.symm
  have hdvd : TAG_MODULUS ∣ (Y + D) - Y :=
    (Nat.modEq_iff_dvd' (Nat.le_add_right Y D)).mp hmod
  rw [Nat.add_sub_cancel_left, hD] at hdvd
  have hco : Nat.Coprime TAG_MODULUS (2 ^ t) := tag_modulus_coprime_two.pow_right t
  exact tag_modulus_ne_one (Nat.Coprime.eq_one_of_dvd hco hdvd)

theorem mod_shift_ne (C Q j t : Nat) (hq : Q = 2 ^ t) {x y : Nat}
    (hxy : x = y + 2 ^ j) :
    (C + x * Q) % TAG_MODULUS ≠ (C + y * Q) % TAG_MODULUS := by
  subst hxy
  have h1 : C + (y + 2 ^ j) * Q = (C + y * Q) + 2 ^ j * Q := by ring
  rw [h1]
  exact mod_add_pow_ne (C + y * Q) (2 ^ j * Q) (j + t) (by rw [hq, pow_add])

theorem tagNat_set_ne (k : CryptoKey) (iv ad body : List Nat) (m j : Nat)
    (hm : m < body.length) (hj : j < 8) (hb : ∀ b ∈ body, b < 256) :
    tagNat k iv ad (body.set m ((body.getD m 0) ^^^ 2 ^ j)) ≠ tagNat k iv ad body := by
  have hbm : body.getD m 0 < 256 := hb _ (getD_mem_gen body m 0 hm)
  have hbody : body = body.take m ++ body.getD m 0 :: body.drop (m + 1) :=
    eq_take_cons_drop body m 0 hm
  have hset : body.set m ((body.getD m 0) ^^^ 2 ^ j)
      = body.take m ++ ((body.getD m 0) ^^^ 2 ^ j) :: body.drop (m + 1) :=
    set_eq_take_cons_drop body m _ hm
  -- abbreviations
  set bm := body.getD m 0 with hbm_def
  set u := body.take m with hu
  set v := body.drop (m + 1) with hv
  set P := iv ++ ad ++ u with hP
  have hre : ∀ x : Nat, iv ++ ad ++ (u ++ x :: v) = P ++ x :: v := by
    intro x
    simp [hP, List.append_assoc]
  have hbn : ∀ x : Nat, beNat (iv ++ ad ++ (u ++ x :: v))
      = beNat P * 256 ^ (v.length + 1) + (x * 256 ^ v.length + beNat v) := by
    intro x
    rw [hre x, beNat_append, beNat_cons, List.length_cons]
  have hln : ∀ x : Nat, (iv ++ ad ++ (u ++ x :: v)).length
      = P.length + (v.length + 1) := by
    intro x
    rw [hre x]
    simp
  intro hcontra
  unfold tagNat at hcontra
  rw [hset] at hcontra
  rw [hbody] at hcontra
  rw [hbn, hbn, hln, hln] at hcontra
  set K := keyNat k * 256 ^ (P.length + (v.length + 1)) with hK
  set A := beNat P * 256 ^ (v.length + 1) with hA
  set Q := (256 : Nat) ^ v.length with hQ
  set R := beNat v with hR
  set C := K + A + R with hC
  have hc2 : (C + (bm ^^^ 2 ^ j) * Q) % TAG_MODULUS = (C + bm * Q) % TAG_MODULUS := by
    have e1 : C + (bm ^^^ 2 ^ j) * Q = K + (A + ((bm ^^^ 2 ^ j) * Q + R)) := by
      rw [hC]; ring
    have e2 : C + bm * Q = K + (A + (bm * Q + R)) := by
      rw [hC]; ring
    rw [e1, e2]
    exact hcontra
  have hQpow : Q = 2 ^ (8 * v.length) := by
    rw [hQ, show (256 : Nat) = 2 ^ 8 from by norm_num, ← pow_mul]
  rcases xor_bit_cases bm hbm j hj with hcase | hcase
  · exact mod_shift_ne C Q j (8 * v.length) hQpow hcase hc2
  · exact mod_shift_ne C Q j (8 * v.length) hQpow hcase hc2.symm

theorem aeadDecrypt_flip (k : CryptoKey) (iv ad pt : List Nat) (m j : Nat)
    (hm : m < pt.length + 16) (hj : j < 8) (hpt : ∀ b ∈ pt, b < 256) :
    aeadDecrypt k iv ad
      ((aeadEncrypt k iv ad pt).set m ((aeadEncrypt k iv ad pt).getD m 0 ^^^ 2 ^ j))
      = none := by
  set body := xorKs k iv 0 pt with hbody
  set tag := natToBeW 16 (tagNat k iv ad body) with htag
  have hbl : body.length = pt.length := xorKs_length k iv 0 pt
  have htl : tag.length = 16 := natToBeW_length 16 _
  have henc : aeadEncrypt k iv ad pt = body ++ tag := rfl
  rw [henc]
  by_cases hcase : m < body.length
  · -- bit flip inside the masked plaintext part of the ciphertext
    have hget : (body ++ tag).getD m 0 = body.getD m 0 :=
      getD_append_left_gen body tag 0 m hcase
    have hset : (body ++ tag).set m (body.getD m 0 ^^^ 2 ^ j)
        = body.set m (body.getD m 0 ^^^ 2 ^ j) ++ tag :=
      set_append_left_gen body tag _ m hcase
    rw [hget, hset]
    set body2 := body.set m (body.getD m 0 ^^^ 2 ^ j) with hbody2
    have hb2l : body2.length = body.length := List.length_set body m _
    unfold aeadDecrypt
    have hlen : (body2 ++ tag).length = pt.length + 16 := by
      simp [List.length_append, hb2l, hbl, htl]
    rw [hlen]
    rw [if_neg (by omega : ¬ (pt.length + 16 < 16))]
    have h16 : pt.length + 16 - 16 = body2.length := by omega
    rw [h16, List.take_left, List.drop_left]
    have hne : tag ≠ natToBeW 16 (tagNat k iv ad body2) := by
      intro hcontra
      have h1 : natToBeW 16 (tagNat k iv ad body) = natToBeW 16 (tagNat k iv ad body2) := by
        rw [← htag]; exact hcontra
      have h2 : tagNat k iv ad body = tagNat k iv ad body2 :=
        natToBeW_inj (by simpa using tagNat_lt k iv ad body)
          (by simpa using tagNat_lt k iv ad body2) h1
      exact tagNat_set_ne k iv ad body m j hcase hj (xorKs_lt k iv 0 pt hpt) h2.symm
    rw [if_neg hne]
  · -- bit flip inside the 16-byte tag
    have hmt : m - body.length < 16 := by omega
    have hble : body.length ≤ m := Nat.le_of_not_lt hcase
    have hget : (body ++ tag).getD m 0 = tag.getD (m - body.length) 0 :=
      getD_append_right_gen body tag 0 m hble
    have hset : (body ++ tag).set m (tag.getD (m - body.length) 0 ^^^ 2 ^ j)
        = body ++ tag.set (m - body.length) (tag.getD (m - body.length) 0 ^^^ 2 ^ j) :=
      set_append_right_gen body tag _ m hble
    rw [hget, hset]
    set tag2 := tag.set (m - body.length) (tag.getD (m - body.length) 0 ^^^ 2 ^ j) with htag2
    have ht2l : tag2.length = 16 := by
      rw [htag2, List.length_set, htl]
    unfold aeadDecrypt
    have hlen : (body ++ tag2).length = pt.length + 16 := by
      simp [List.length_append, hbl, ht2l]
    rw [hlen]
    rw [if_neg (by omega : ¬ (pt.length + 16 < 16))]
    have h16 : pt.length + 16 - 16 = body.length := by omega
    rw [h16, List.take_left, List.drop_left]
    have hne : tag2 ≠ natToBeW 16 (tagNat k iv ad body) := by
      intro hcontra
      have h1 : tag2.getD (m - body.length) 0 = tag.getD (m - body.length) 0 := by
        rw [hcontra, ← htag]
      rw [htag2, getD_set_self_gen tag _ _ _ (by omega)] at h1
      exact xor_two_pow_ne _ j h1
    rw [if_neg hne]

/-! ### The `E2EEManager` embedding

Direct translation of the class in `src/room/track/ee2e.ts`
(lines 183-447).  Byte buffers are `List Nat`; the sendCounts `Map` is
an association list; `Math.random` results reach `makeIV` through an
explicit `rand` argument; rejected promises of `crypto.subtle` are the
`Except.error` / `Option.none` branches. -/

/-- Frame kinds: `key` and `delta` for video, `undefined` for audio
(`frame.type` is not set on audio). -/
inductive FrameType
  | key
  | delta
  | undefined
deriving DecidableEq, Repr

/-- Unencrypted prefix lengths (`UNENCRYPTED_BYTES` in the source). -/
def UNENCRYPTED_BYTES : FrameType → Nat
  | .key => 10
  | .delta => 3
  | .undefined => 1

/-- 96-bit IV for AES-GCM (`IV_LENGTH` in the source). -/
def IV_LENGTH : Nat := 12

/-- One byte of key identifiers (`KEY_RING_SIZE` in the source). -/
def KEY_RING_SIZE : Nat := 256

/-- An encoded media chunk (`Chunk` in the source): SSRC, RTP timestamp,
frame kind and payload bytes. -/
structure Frame where
  synchronizationSource : Nat
  timestamp : Nat
  frameType : FrameType
  data : List Nat
deriving DecidableEq, Repr

/-- Association-list lookup modelling `Map.get`. -/
def mapGet (m : List (Nat × Nat)) (k : Nat) : Option Nat :=
  match m with
  | [] => none
  | (k2, v) :: rest => if k2 = k then some v else mapGet rest k

/-- Association-list update modelling `Map.set` (replace in place or
append). -/
def mapSet (m : List (Nat × Nat)) (k v : Nat) : List (Nat × Nat) :=
  match m with
  | [] => [(k, v)]
  | (k2, v2) :: rest => if k2 = k then (k, v) :: rest else (k2, v2) :: mapSet rest k v

theorem mapGet_mapSet_self (m : List (Nat × Nat)) (k v : Nat) :
    mapGet (mapSet m k v) k = some v := by
  induction m with
  | nil => simp [mapGet, mapSet]
  | cons p rest ih =>
    obtain ⟨k2, v2⟩ := p
    by_cases h : k2 = k
    · simp [mapGet, mapSet, h]
    · simp [mapGet, mapSet, h, ih]

theorem mapGet_mapSet_ne (m : List (Nat × Nat)) (k k2 v : Nat) (h : k ≠ k2) :
    mapGet (mapSet m k v) k2 = mapGet m k2 := by
  induction m with
  | nil => simp [mapGet, mapSet, h]
  | cons p rest ih =>
    obtain ⟨k3, v3⟩ := p
    by_cases h3 : k3 = k
    · subst h3
      simp [mapGet, mapSet, h]
    · by_cases h4 : k3 = k2 <;> simp [mapGet, mapSet, h3, h4, ih, Ne.symm h]

/-- The `E2EEManager` instance state. -/
structure E2EEManager where
  keyRing : List (Option CryptoKey)
  currentKeyId : Nat
  sendCounts : List (Nat × Nat)
  presharedKey : Option (List Nat)
deriving DecidableEq, Repr

/-- The constructor: 256 empty slots, key id 0, empty counters. -/
def E2EEManager.init : E2EEManager :=
  { keyRing := List.replicate KEY_RING_SIZE none
    currentKeyId := 0
    sendCounts := []
    presharedKey := none }

/-- Getter `get currentCryptoKey()` — `this.keyRing[this.currentKeyId]`. -/
def currentCryptoKey (st : E2EEManager) : Option CryptoKey :=
  st.keyRing.getD st.currentKeyId none

/-- Modelled `crypto.subtle.deriveKey(PBKDF2(salt, 1 iter, SHA-256), base)`:
the derived AES-GCM key for a preshared base secret and a one-byte salt. -/
def deriveKey (base : List Nat) (salt : Nat) : CryptoKey :=
  { base := base, salt := salt }

/-- Modelled `generatePresharedKey`: `importKey('raw', encode(password), 'PBKDF2')`
just wraps the password bytes as key material. -/
def generatePresharedKey (password : List Nat) : List Nat :=
  password

/-- `generateNextKeyForId(id)`: derives the key for slot
`(id + 1) % keyRing.length`; throws when no preshared key is set. -/
def generateNextKeyForId (st : E2EEManager) (id : Nat) : Except Unit CryptoKey :=
  match st.presharedKey with
  | none => .error ()
  | some base => .ok (deriveKey base ((id + 1) % st.keyRing.length))

/-- `prefillKeyRing()`: for `i` in `[0, keyRing.length)` stores
`generateNextKeyForId(i)` at slot `(i + 1) % keyRing.length`.
`List.set` preserves the length, so the live `this.keyRing.length`
equals the initial one at every iteration. -/
def prefillKeyRing (st : E2EEManager) : Except Unit E2EEManager :=
  if st.keyRing.length = 0 then .ok st
  else
    match st.presharedKey with
    | none => .error ()
    | some base =>
      .ok { st with
        keyRing := (List.range st.keyRing.length).foldl
          (fun r i => r.set ((i + 1) % st.keyRing.length)
            (some (deriveKey base ((i + 1) % st.keyRing.length)))) st.keyRing }

/-- `setPassword(password)`: non-empty password derives the preshared
key, resets `currentKeyId` to 0 and prefills the ring; the empty
password does nothing. -/
def setPassword (st : E2EEManager) (password : List Nat) : Except Unit E2EEManager :=
  if password ≠ [] then
    prefillKeyRing { st with
      presharedKey := some (generatePresharedKey password)
      currentKeyId := 0 }
  else .ok st

/-- `rotateKey()`: advance `currentKeyId` modulo the ring length when a
current key exists, otherwise do nothing. -/
def rotateKey (st : E2EEManager) : E2EEManager :=
  if (currentCryptoKey st).isSome then
    { st with currentKeyId := (st.currentKeyId + 1) % st.keyRing.length }
  else st

/-- `getKeyForId(id)` as an `Option`: `none` models the thrown
`key for id not found` error on an empty slot. -/
def getKeyForId (st : E2EEManager) (id : Nat) : Option CryptoKey :=
  st.keyRing.getD id none

/-- `makeIV(synchronizationSource, timestamp)`.  `rand` is the value of
`Math.floor(Math.random() * 0xffff)` used to seed the counter for a
new SSRC.  Returns the 12 IV bytes and the updated manager. -/
def makeIV (rand : Nat) (st : E2EEManager) (synchronizationSource timestamp : Nat) :
    List Nat × E2EEManager :=
  let counts0 :=
    if (mapGet st.sendCounts synchronizationSource).isSome then st.sendCounts
    else mapSet st.sendCounts synchronizationSource rand
  let sendCount := (mapGet counts0 synchronizationSource).getD 0
  let iv := be32 synchronizationSource ++ be32 timestamp ++ be32 (sendCount % 0xffff)
  (iv, { st with sendCounts := mapSet counts0 synchronizationSource (sendCount + 1) })

/-- The outcome type of `crypto.subtle.encrypt`: `ok` is the resolved
ciphertext, `error` a rejected promise. -/
def subtleEncrypt (k : CryptoKey) (iv ad pt : List Nat) : Except Unit (List Nat) :=
  .ok (aeadEncrypt k iv ad pt)

/-- An always-failing encrypt provider, modelling an AES-GCM rejection. -/
def subtleEncryptFail (_k : CryptoKey) (_iv _ad _pt : List Nat) : Except Unit (List Nat) :=
  .error ()

/-- `encodeFunction(frame, controller)` with the encrypt outcome supplied
by `enc`.  Returns the updated manager and the list of frames passed to
`controller.enqueue`.  Branches, in source order:
no key or empty payload — enqueue unchanged; header slice out of range —
sync throw, caught, fall through to enqueue unchanged; encrypt resolved —
enqueue `header ++ ciphertext ++ iv ++ trailer`; encrypt rejected — log
only, deliberately no enqueue. -/
def encodeFunctionWith
    (enc : CryptoKey → List Nat → List Nat → List Nat → Except Unit (List Nat))
    (rand : Nat) (st : E2EEManager) (f : Frame) : E2EEManager × List Frame :=
  match currentCryptoKey st with
  | some k =>
    if f.data.length > 0 then
      let ivst := makeIV rand st f.synchronizationSource f.timestamp
      let iv := ivst.1
      let st2 := ivst.2
      if UNENCRYPTED_BYTES f.frameType > f.data.length then (st2, [f])
      else
        let frameHeader := f.data.take (UNENCRYPTED_BYTES f.frameType)
        let frameTrailer := [IV_LENGTH, st.currentKeyId % 256]
        match enc k iv frameHeader (f.data.drop (UNENCRYPTED_BYTES f.frameType)) with
        | .ok cipherText =>
          (st2, [{ f with data := frameHeader ++ cipherText ++ iv ++ frameTrailer }])
        | .error _ => (st2, [])
    else (st, [f])
  | none => (st, [f])

/-- `encodeFunction` with the (always succeeding) idealized AES-GCM. -/
def encodeFunction (rand : Nat) (st : E2EEManager) (f : Frame) :
    E2EEManager × List Frame :=
  encodeFunctionWith subtleEncrypt rand st f

/-- The body of `decodeFunction`'s `try` block: the frame that ends up
enqueued (the original one whenever any step throws or the decrypt
promise rejects, the re-assembled one on success). -/
def decodeTry (st : E2EEManager) (f : Frame) : Frame :=
  let L := f.data.length
  let h := UNENCRYPTED_BYTES f.frameType
  if h > L then f
  else if L < 2 then f
  else
    let ivLength := f.data.getD (L - 2) 0
    if ivLength + 2 > L then f
    else
      let keyId := f.data.getD (L - 1) 0
      match getKeyForId st keyId with
      | none => f
      | some key =>
        if h + ivLength + 2 > L then f
        else
          let iv := (f.data.drop (L - ivLength - 2)).take ivLength
          let cipherText := (f.data.drop h).take (L - (h + ivLength + 2))
          match aeadDecrypt key iv (f.data.take h) cipherText with
          | none => f
          | some plainText => { f with data := f.data.take h ++ plainText }

/-- `decodeFunction(frame, controller)`: the manager state is never
modified, and the final `controller.enqueue` is outside the
`try`/`catch`, so exactly one frame is always enqueued. -/
def decodeFunction (st : E2EEManager) (f : Frame) : E2EEManager × List Frame :=
  if (currentCryptoKey st).isSome ∧ f.data.length > 0 then (st, [decodeTry st f])
  else (st, [f])

/-- A frame with bit `j` of byte `pos` of its payload flipped. -/
def flipBit (f : Frame) (pos j : Nat) : Frame :=
  { f with data := f.data.set pos ((f.data.getD pos 0) ^^^ 2 ^ j) }

/-! ### Concrete fixtures used by witnesses and counterexamples -/

/-- A concrete derived key. -/
def kA : CryptoKey := deriveKey [1] 0

/-- A small manager with one populated ring slot and a seeded counter. -/
def stA : E2EEManager :=
  { keyRing := [some kA], currentKeyId := 0, sendCounts := [(1, 5)], presharedKey := some [1] }

/-- A concrete audio frame. -/
def fA : Frame :=
  { synchronizationSource := 1, timestamp := 2, frameType := .undefined, data := [3, 7, 9] }

/-- A concrete audio frame with an empty payload. -/
def fEmpty : Frame :=
  { synchronizationSource := 1, timestamp := 2, frameType := .undefined, data := [] }

/-- A manager whose counter for SSRC 5 is about to wrap the `% 0xffff`. -/
def stC4 : E2EEManager :=
  { keyRing := [], currentKeyId := 0, sendCounts := [(5, 65535)], presharedKey := none }

/-! ### Claim theorems -/

/-- Claim C9: `setPassword` with the empty string is a no-op — the
preshared key, every key-ring slot and `currentKeyId` are all left
exactly as they were. -/
theorem setPassword_empty_noop (st : E2EEManager) : setPassword st [] = .ok st := by
  simp [setPassword]

/-- Claim C8: with no key set (the current slot is empty), both
`encodeFunction` and `decodeFunction` forward every frame unchanged,
producing exactly one output frame identical to the input. -/
theorem passthrough_no_key (rand : Nat) (st : E2EEManager) (f : Frame)
    (h : currentCryptoKey st = none) :
    encodeFunction rand st f = (st, [f]) ∧ decodeFunction st f = (st, [f]) := by
  refine ⟨?_, ?_⟩ <;>
    simp [encodeFunction, encodeFunctionWith, decodeFunction, h]

/-- Witness for C8 at the constructor state and a concrete frame. -/
theorem passthrough_no_key_witness :
    encodeFunction 0 E2EEManager.init fA = (E2EEManager.init, [fA]) ∧
      decodeFunction E2EEManager.init fA = (E2EEManager.init, [fA]) :=
  passthrough_no_key 0 E2EEManager.init fA (by decide)

/-- Claim C10: with a key active, a frame whose payload is empty is
forwarded unchanged by both transforms; no state (in particular no send
counter) changes. -/
theorem passthrough_empty_payload (rand : Nat) (st : E2EEManager) (f : Frame)
    (k : CryptoKey) (hk : currentCryptoKey st = some k) (hd : f.data = []) :
    encodeFunction rand st f = (st, [f]) ∧ decodeFunction st f = (st, [f]) := by
  refine ⟨?_, ?_⟩ <;>
    simp [encodeFunction, encodeFunctionWith, decodeFunction, hk, hd]

/-- Witness for C10 at a concrete keyed manager and empty-payload frame. -/
theorem passthrough_empty_payload_witness :
    encodeFunction 0 stA fEmpty = (stA, [fEmpty]) ∧
      decodeFunction stA fEmpty = (stA, [fEmpty]) :=
  passthrough_empty_payload 0 stA fEmpty kA (by decide) (by decide)

/-- Claim C4 (amended): `makeIV` returns
`be32 ssrc ++ be32 timestamp ++ be32 (count % 65535)` — the counter is
reduced modulo `0xffff = 65535`, not 65536 — where `count` is the
stored send counter for the SSRC (or the random seed on first use); the
counter is stored back incremented by one and no other SSRC's counter
changes. -/
theorem makeIV_layout (rand : Nat) (st : E2EEManager) (ssrc ts : Nat) :
    (makeIV rand st ssrc ts).1 = be32 ssrc ++ be32 ts ++
      be32 (((mapGet st.sendCounts ssrc).getD rand) % 65535) ∧
    (makeIV rand st ssrc ts).1.length = 12 ∧
    mapGet (makeIV rand st ssrc ts).2.sendCounts ssrc =
      some ((mapGet st.sendCounts ssrc).getD rand + 1) ∧
    (makeIV rand st ssrc ts).2.keyRing = st.keyRing ∧
    (makeIV rand st ssrc ts).2.currentKeyId = st.currentKeyId ∧
    (∀ s2, s2 ≠ ssrc →
      mapGet (makeIV rand st ssrc ts).2.sendCounts s2 = mapGet st.sendCounts s2) := by
  cases hm : mapGet st.sendCounts ssrc with
  | some v =>
    refine ⟨?_, ?_, ?_, rfl, rfl, ?_⟩ <;>
      simp [makeIV, hm, be32, mapGet_mapSet_self]
    intro s2 h2
    simp [makeIV, hm, mapGet_mapSet_ne st.sendCounts ssrc s2 _ (Ne.symm h2)]
  | none =>
    refine ⟨?_, ?_, ?_, rfl, rfl, ?_⟩ <;>
      simp [makeIV, hm, be32, mapGet_mapSet_self]
    intro s2 h2
    simp [makeIV, hm, mapGet_mapSet_self,
      mapGet_mapSet_ne _ ssrc s2 _ (Ne.symm h2)]

/-- Counterexample for C4 as stated: with the counter for SSRC 5 at
65535, bytes 8-11 of the IV are `be32 (65535 % 0xffff) = be32 0`, not
`be32 (65535 % 65536) = be32 65535` as the claim's modulo-65536 reading
predicts. -/
theorem makeIV_mod_65536_counterexample :
    (makeIV 0 stC4 5 7).1 ≠ be32 5 ++ be32 7 ++ be32 (65535 % 65536) := by
  decide

/-- State after `n` further `makeIV` calls for a fixed SSRC/timestamp. -/
def ivCallState (st : E2EEManager) (ssrc ts : Nat) : Nat → E2EEManager
  | 0 => st
  | n + 1 => (makeIV 0 (ivCallState st ssrc ts n) ssrc ts).2

/-- The IV produced by the `(n+1)`-st consecutive `makeIV` call. -/
def ivCallOut (st : E2EEManager) (ssrc ts : Nat) (n : Nat) : List Nat :=
  (makeIV 0 (ivCallState st ssrc ts n) ssrc ts).1

theorem ivCallState_sendCount (st : E2EEManager) (ssrc ts c : Nat)
    (h : mapGet st.sendCounts ssrc = some c) :
    ∀ n, mapGet (ivCallState st ssrc ts n).sendCounts ssrc = some (c + n) := by
  intro n
  induction n with
  | zero => simpa [ivCallState] using h
  | succ n ih =>
    show mapGet (makeIV 0 (ivCallState st ssrc ts n) ssrc ts).2.sendCounts ssrc
      = some (c + (n + 1))
    simp only [makeIV, ih, Option.isSome_some, if_true, Option.getD_some]
    rw [mapGet_mapSet_self, Nat.add_assoc]

theorem ivCallOut_formula (st : E2EEManager) (ssrc ts c : Nat)
    (h : mapGet st.sendCounts ssrc = some c) (n : Nat) :
    ivCallOut st ssrc ts n = be32 ssrc ++ be32 ts ++ be32 ((c + n) % 65535) := by
  unfold ivCallOut
  simp only [makeIV, ivCallState_sendCount st ssrc ts c h n, Option.isSome_some,
    if_true, Option.getD_some]

theorem be32_inj_small {a b : Nat} (ha : a < 65536) (hb : b < 65536)
    (h : be32 a = be32 b) : a = b := by
  simp only [be32, List.cons.injEq, and_true] at h
  omega

/-- Claim C5: for a fixed SSRC (any timestamp, any current counter
value `c`), 1000 consecutive `makeIV` calls produce pairwise distinct
IVs: the counters `c + i` are distinct modulo 65535 for `i < 1000`. -/
theorem makeIV_nonce_uniqueness (st : E2EEManager) (ssrc ts c : Nat)
    (h : mapGet st.sendCounts ssrc = some c) :
    ∀ i j, i < j → j < 1000 → ivCallOut st ssrc ts i ≠ ivCallOut st ssrc ts j := by
  intro i j hij hj heq
  rw [ivCallOut_formula st ssrc ts c h i, ivCallOut_formula st ssrc ts c h j,
    List.append_assoc, List.append_assoc] at heq
  have h2 := List.append_cancel_left (List.append_cancel_left heq)
  have h3 : (c + i) % 65535 = (c + j) % 65535 :=
    be32_inj_small (by omega) (by omega) h2
  omega

/-- Witness for C5: the first two IVs for SSRC 1 at a concrete manager
differ. -/
theorem makeIV_nonce_uniqueness_witness :
    ivCallOut stA 1 2 0 ≠ ivCallOut stA 1 2 1 :=
  makeIV_nonce_uniqueness stA 1 2 5 (by decide) 0 1 (by decide) (by decide)

theorem foldl_set_length {α : Type} (pos : Nat → Nat) (G : Nat → α)
    (l : List Nat) (r : List α) :
    (l.foldl (fun acc i => acc.set (pos i) (G (pos i))) r).length = r.length := by
  induction l generalizing r with
  | nil => rfl
  | cons a t ih => simp [List.foldl, ih, List.length_set]

theorem getD_set_ne_gen {α : Type} (l : List α) (m n : Nat) (v d : α)
    (h : m ≠ n) : (l.set m v).getD n d = l.getD n d := by
  induction l generalizing m n with
  | nil => simp
  | cons x t ih =>
    cases m with
    | zero =>
      cases n with
      | zero => exact absurd rfl h
      | succ n2 => simp
    | succ m2 =>
      cases n with
      | zero => simp
      | succ n2 =>
        simp only [List.set_cons_succ, List.getD_cons_succ]
        exact ih m2 n2 (by omega)

theorem foldl_set_getD {α : Type} (pos : Nat → Nat) (G : Nat → α) (d : α)
    (l : List Nat) (r : List α) (j : Nat) (hj : j < r.length) :
    (l.foldl (fun acc i => acc.set (pos i) (G (pos i))) r).getD j d =
      if ∃ i ∈ l, pos i = j then G j else r.getD j d := by
  induction l generalizing r with
  | nil => simp
  | cons a t ih =>
    rw [List.foldl_cons, ih (r.set (pos a) (G (pos a))) (by simpa using hj)]
    by_cases hex : ∃ i ∈ t, pos i = j
    · rw [if_pos hex, if_pos ⟨hex.choose, List.mem_cons_of_mem a hex.choose_spec.1,
        hex.choose_spec.2⟩]
    · rw [if_neg hex]
      by_cases ha : pos a = j
      · rw [ha, getD_set_self_gen r j _ d hj,
          if_pos ⟨a, List.mem_cons_self a t, ha⟩]
      · rw [getD_set_ne_gen r (pos a) j _ d ha, if_neg]
        rintro ⟨i, hi, hpi⟩
        rcases List.mem_cons.mp hi with rfl | hit
        · exact ha hpi
        · exact hex ⟨i, hit, hpi⟩

/-- Claim C6: after `prefillKeyRing` on a 256-slot ring with preshared
base `base`, every slot `j` holds exactly `deriveKey base j` (the
PBKDF2-derived key with the single byte `j` as salt); derivation is a
pure function of `(base, j)`, so re-deriving is reproducible. -/
theorem prefillKeyRing_slots (st : E2EEManager) (base : List Nat)
    (h1 : st.presharedKey = some base) (h2 : st.keyRing.length = 256)
    (j : Nat) (hj : j < 256) :
    (prefillKeyRing st).map (fun s => s.keyRing.getD j none) =
      .ok (some (deriveKey base j)) := by
  unfold prefillKeyRing
  rw [h2, h1]
  rw [if_neg (by norm_num)]
  simp only [Except.map]
  rw [foldl_set_getD (fun i => (i + 1) % 256) (fun p => some (deriveKey base p)) none
    (List.range 256) st.keyRing j (by rw [h2]; exact hj)]
  rw [if_pos]
  rcases Nat.eq_zero_or_pos j with hj0 | hj1
  · exact ⟨255, List.mem_range.mpr (by norm_num), by simp [hj0]⟩
  · exact ⟨j - 1, List.mem_range.mpr (by omega),
      by rw [Nat.sub_add_cancel hj1]; exact Nat.mod_eq_of_lt hj⟩

/-- The constructor state with a preshared secret set. -/
def stP : E2EEManager :=
  { keyRing := List.replicate 256 none
    currentKeyId := 0
    sendCounts := []
    presharedKey := some [1] }

set_option maxRecDepth 20000 in
/-- Witness for C6: slot 7 of the prefilled ring holds the key derived
with salt byte 7. -/
theorem prefillKeyRing_slots_witness :
    (prefillKeyRing stP).map (fun s => s.keyRing.getD 7 none) =
      .ok (some (deriveKey [1] 7)) :=
  prefillKeyRing_slots stP [1] rfl (by simp [stP]) 7 (by norm_num)

theorem rotateKey_isSome_eq (st : E2EEManager) (h : (currentCryptoKey st).isSome) :
    rotateKey st = { st with currentKeyId := (st.currentKeyId + 1) % st.keyRing.length } := by
  unfold rotateKey
  rw [if_pos h]

theorem rotate_iter_aux (st : E2EEManager) (hlen : st.keyRing.length = 256)
    (hid : st.currentKeyId = 0)
    (hfull : ∀ j, j < 256 → (st.keyRing.getD j none).isSome) :
    ∀ n, (rotateKey^[n] st).currentKeyId = n % 256 ∧
      (rotateKey^[n] st).keyRing = st.keyRing := by
  intro n
  induction n with
  | zero => simpa using hid
  | succ n ih =>
    obtain ⟨ih1, ih2⟩ := ih
    have hkey : (currentCryptoKey (rotateKey^[n] st)).isSome := by
      unfold currentCryptoKey
      rw [ih2, ih1]
      exact hfull (n % 256) (Nat.mod_lt n (by norm_num))
    rw [Function.iterate_succ_apply', rotateKey_isSome_eq _ hkey]
    refine ⟨?_, by simpa using ih2⟩
    simp only [ih1, ih2, hlen]
    omega

/-- Claim C7: `rotateKey` advances `currentKeyId` to
`(currentKeyId + 1) % 256` when the current slot holds a key and is a
no-op when it does not; on a fully prefilled 256-slot ring starting at
index 0, 256 rotations return the index to 0 and every visited index
holds exactly the key derived for it. -/
theorem rotateKey_behavior (st : E2EEManager) (base : List Nat) :
    ((currentCryptoKey st).isSome →
      (rotateKey st).currentKeyId = (st.currentKeyId + 1) % st.keyRing.length) ∧
    (currentCryptoKey st = none → rotateKey st = st) ∧
    (st.keyRing.length = 256 → st.currentKeyId = 0 →
      (∀ j, j < 256 → st.keyRing.getD j none = some (deriveKey base j)) →
      (rotateKey^[256] st).currentKeyId = 0 ∧
        ∀ n, n < 256 → (rotateKey^[n] st).currentKeyId = n ∧
          currentCryptoKey (rotateKey^[n] st) = some (deriveKey base n)) := by
  refine ⟨?_, ?_, ?_⟩
  · intro h
    rw [rotateKey_isSome_eq st h]
  · intro h
    simp [rotateKey, h]
  · intro hlen hid hfull
    have hfull2 : ∀ j, j < 256 → (st.keyRing.getD j none).isSome := by
      intro j hj
      rw [hfull j hj]
      rfl
    have haux := rotate_iter_aux st hlen hid hfull2
    have h256 := (haux 256).1
    rw [show (256 % 256 : Nat) = 0 from by norm_num] at h256
    refine ⟨h256, ?_⟩
    intro n hn
    obtain ⟨h1, h2⟩ := haux n
    rw [Nat.mod_eq_of_lt hn] at h1
    refine ⟨h1, ?_⟩
    unfold currentCryptoKey
    rw [h2, h1]
    exact hfull n hn

/-- A manager with a fully prefilled ring (every slot `j` holding
`deriveKey [1] j`) at index 0. -/
def stFull : E2EEManager :=
  { keyRing := (List.range 256).map (fun j => some (deriveKey [1] j))
    currentKeyId := 0
    sendCounts := []
    presharedKey := some [1] }

set_option maxRecDepth 20000 in
/-- Witness for C7: 256 rotations on the prefilled manager return the
index to 0, and at step 5 the current key is the one derived for 5. -/
theorem rotateKey_behavior_witness :
    (rotateKey^[256] stFull).currentKeyId = 0 ∧
      currentCryptoKey (rotateKey^[5] stFull) = some (deriveKey [1] 5) := by
  have h := (rotateKey_behavior stFull [1]).2.2 (by decide) (by decide) (by decide)
  exact ⟨h.1, (h.2 5 (by norm_num)).2⟩

theorem trailer_getD0 (pre : List Nat) (a b : Nat) :
    (pre ++ [a, b]).getD ((pre ++ [a, b]).length - 2) 0 = a := by
  have h1 : (pre ++ [a, b]).length - 2 = pre.length := by simp
  rw [h1, getD_append_right_gen pre [a, b] 0 pre.length (le_refl _)]
  simp

theorem trailer_getD1 (pre : List Nat) (a b : Nat) :
    (pre ++ [a, b]).getD ((pre ++ [a, b]).length - 1) 0 = b := by
  have h1 : (pre ++ [a, b]).length - 1 = pre.length + 1 := by simp
  rw [h1, getD_append_right_gen pre [a, b] 0 (pre.length + 1) (by omega)]
  simp

theorem decodeTry_layout (st : E2EEManager) (k : CryptoKey) (f : Frame)
    (H C V : List Nat) (kid : Nat)
    (hH : H.length = UNENCRYPTED_BYTES f.frameType)
    (hV : V.length = 12)
    (hdata : f.data = H ++ C ++ V ++ [12, kid])
    (hkid : getKeyForId st kid = some k) :
    decodeTry st f = (aeadDecrypt k V H C).elim f (fun pt => { f with data := H ++ pt }) := by
  have hDlen : (H ++ C ++ V ++ [12, kid]).length = H.length + C.length + 14 := by
    simp only [List.length_append, List.length_cons, List.length_nil, hV]
  have hGD2 : (H ++ C ++ V ++ [12, kid]).getD (H.length + C.length + 14 - 2) 0 = 12 := by
    have h1 : H.length + C.length + 14 - 2 = (H ++ C ++ V).length := by
      simp only [List.length_append, hV]
      omega
    rw [h1, getD_append_right_gen (H ++ C ++ V) [12, kid] 0 _ (le_refl _)]
    simp
  have hGD1 : (H ++ C ++ V ++ [12, kid]).getD (H.length + C.length + 14 - 1) 0 = kid := by
    have h1 : H.length + C.length + 14 - 1 = (H ++ C ++ V).length + 1 := by
      simp only [List.length_append, hV]
      omega
    rw [h1, getD_append_right_gen (H ++ C ++ V) [12, kid] 0 _ (by omega)]
    simp
  have hc1 : ¬ (UNENCRYPTED_BYTES f.frameType > H.length + C.length + 14) := by
    rw [← hH]
    omega
  have hc2 : ¬ (H.length + C.length + 14 < 2) := by omega
  have hc3 : ¬ (12 + 2 > H.length + C.length + 14) := by omega
  have hc4 : ¬ (UNENCRYPTED_BYTES f.frameType + 12 + 2 > H.length + C.length + 14) := by
    rw [← hH]
    omega
  have hiv : List.take 12 (List.drop (H.length + C.length + 14 - 12 - 2)
      (H ++ C ++ V ++ [12, kid])) = V := by
    have h1 : H.length + C.length + 14 - 12 - 2 = (H ++ C).length := by
      simp only [List.length_append]
      omega
    rw [h1, List.append_assoc (H ++ C) V [12, kid], List.drop_left,
      show (12 : Nat) = V.length from hV.symm]
    exact List.take_left V _
  have hct : List.take (H.length + C.length + 14 - (UNENCRYPTED_BYTES f.frameType + 12 + 2))
      (List.drop (UNENCRYPTED_BYTES f.frameType) (H ++ C ++ V ++ [12, kid])) = C := by
    rw [← hH]
    have h1 : H.length + C.length + 14 - (H.length + 12 + 2) = C.length := by omega
    rw [h1]
    have h2 : H ++ C ++ V ++ [12, kid] = H ++ (C ++ (V ++ [12, kid])) := by
      simp [List.append_assoc]
    rw [h2, List.drop_left, List.take_left C _]
  have had : List.take (UNENCRYPTED_BYTES f.frameType) (H ++ C ++ V ++ [12, kid]) = H := by
    rw [← hH]
    have h2 : H ++ C ++ V ++ [12, kid] = H ++ (C ++ (V ++ [12, kid])) := by
      simp [List.append_assoc]
    rw [h2, List.take_left H _]
  simp only [decodeTry, hdata, hDlen, hGD2, hGD1, hkid, if_neg hc1, if_neg hc2,
    if_neg hc3, if_neg hc4, hiv, hct, had]
  cases hdec : aeadDecrypt k V H C with
  | none => simp [hdec]
  | some pt => simp [hdec]

theorem makeIV_12 (rand : Nat) (st : E2EEManager) (ssrc ts : Nat) :
    (makeIV rand st ssrc ts).1.length = 12 := by
  simp [makeIV, be32]

/-- The wire image produced by a successful encode: unencrypted header,
ciphertext (over the rest, with the header as additional data), IV,
2-byte trailer. -/
def encodedData (k : CryptoKey) (iv : List Nat) (kid : Nat) (f : Frame) : List Nat :=
  f.data.take (UNENCRYPTED_BYTES f.frameType)
    ++ aeadEncrypt k iv (f.data.take (UNENCRYPTED_BYTES f.frameType)) (f.data.drop (UNENCRYPTED_BYTES f.frameType))
    ++ iv ++ [IV_LENGTH, kid]

theorem encodeFunction_ok (rand : Nat) (st : E2EEManager) (f : Frame) (k : CryptoKey)
    (hk : currentCryptoKey st = some k) (hne : 0 < f.data.length)
    (hlen : UNENCRYPTED_BYTES f.frameType ≤ f.data.length) :
    encodeFunction rand st f =
      ((makeIV rand st f.synchronizationSource f.timestamp).2,
        [{ f with data := encodedData k (makeIV rand st f.synchronizationSource f.timestamp).1 (st.currentKeyId % 256) f }]) := by
  simp only [encodeFunction, encodeFunctionWith, subtleEncrypt, hk, if_pos hne,
    if_neg (show ¬ (UNENCRYPTED_BYTES f.frameType > f.data.length) from by omega),
    encodedData, List.append_assoc]

theorem encodeFunction_short (rand : Nat) (st : E2EEManager) (f : Frame) (k : CryptoKey)
    (hk : currentCryptoKey st = some k) (hne : 0 < f.data.length)
    (hshort : UNENCRYPTED_BYTES f.frameType > f.data.length) :
    encodeFunction rand st f =
      ((makeIV rand st f.synchronizationSource f.timestamp).2, [f]) := by
  simp only [encodeFunction, encodeFunctionWith, subtleEncrypt, hk, if_pos hne,
    if_pos hshort]

theorem decodeTry_short (st : E2EEManager) (f : Frame)
    (hshort : UNENCRYPTED_BYTES f.frameType > f.data.length) :
    decodeTry st f = f := by
  simp only [decodeTry, if_pos hshort]



/-- Claim C1: with the same key material on both sides (same key ring,
same current index below 256), decoding the single frame produced by
encoding any frame with a non-empty payload reproduces the original
frame — payload bit-for-bit — for every frame kind, SSRC and
timestamp. -/
theorem encode_decode_roundtrip (rand : Nat) (stE stD : E2EEManager) (f : Frame)
    (k : CryptoKey)
    (hk : currentCryptoKey stE = some k)
    (hring : stD.keyRing = stE.keyRing)
    (hid : stD.currentKeyId = stE.currentKeyId)
    (hid256 : stE.currentKeyId < 256)
    (hne : f.data ≠ []) :
    (encodeFunction rand stE f).2.length = 1 ∧
      (decodeFunction stD ((encodeFunction rand stE f).2.getD 0 f)).2 = [f] := by
  have hpos : 0 < f.data.length := List.length_pos.mpr hne
  have hDk : currentCryptoKey stD = some k := by
    unfold currentCryptoKey at hk ⊢
    rw [hring, hid]
    exact hk
  by_cases hlen : UNENCRYPTED_BYTES f.frameType ≤ f.data.length
  · rw [encodeFunction_ok rand stE f k hk hpos hlen]
    refine ⟨rfl, ?_⟩
    simp only [List.getD_cons_zero]
    set iv := (makeIV rand stE f.synchronizationSource f.timestamp).1 with hiv
    set H := f.data.take (UNENCRYPTED_BYTES f.frameType) with hHdef
    set C := aeadEncrypt k iv H (f.data.drop (UNENCRYPTED_BYTES f.frameType)) with hCdef
    set g : Frame := { f with data := encodedData k iv (stE.currentKeyId % 256) f } with hg
    have hgl : 0 < g.data.length := by
      simp only [hg, encodedData, List.length_append, List.length_cons, List.length_nil]
      omega
    have hcond : ((currentCryptoKey stD).isSome ∧ g.data.length > 0) := by
      rw [hDk]
      exact ⟨rfl, hgl⟩
    unfold decodeFunction
    rw [if_pos hcond]
    have hH : H.length = UNENCRYPTED_BYTES g.frameType := by
      simp [hHdef, hg, List.length_take, Nat.min_eq_left hlen]
    have hV : iv.length = 12 := makeIV_12 rand stE f.synchronizationSource f.timestamp
    have hdata : g.data = H ++ C ++ iv ++ [12, stE.currentKeyId % 256] := by
      simp [hg, encodedData, IV_LENGTH, List.append_assoc, hHdef, hCdef]
    have hkid : getKeyForId stD (stE.currentKeyId % 256) = some k := by
      unfold getKeyForId
      unfold currentCryptoKey at hk
      rw [Nat.mod_eq_of_lt hid256, hring]
      exact hk
    rw [decodeTry_layout stD k g H C iv (stE.currentKeyId % 256) hH hV hdata hkid]
    rw [hCdef, aead_roundtrip]
    simp only [Option.elim]
    have : H ++ f.data.drop (UNENCRYPTED_BYTES f.frameType) = f.data := by
      rw [hHdef]
      exact List.take_append_drop _ _
    rw [this]
  · rw [encodeFunction_short rand stE f k hk hpos (by omega)]
    refine ⟨rfl, ?_⟩
    simp only [List.getD_cons_zero]
    unfold decodeFunction
    rw [if_pos ⟨by rw [hDk]; rfl, hpos⟩]
    rw [decodeTry_short stD f (by omega)]

/-- Witness for C1 at a concrete one-slot manager and audio frame. -/
theorem encode_decode_roundtrip_witness :
    (encodeFunction 0 stA fA).2.length = 1 ∧
      (decodeFunction stA ((encodeFunction 0 stA fA).2.getD 0 fA)).2 = [fA] :=
  encode_decode_roundtrip 0 stA stA fA kA (by decide) rfl rfl (by decide) (by decide)

theorem aeadEncrypt_length (k : CryptoKey) (iv ad pt : List Nat) :
    (aeadEncrypt k iv ad pt).length = pt.length + 16 := by
  simp [aeadEncrypt, xorKs_length, natToBeW_length]

theorem decode_tamper_part1 (rand : Nat) (stE stD : E2EEManager) (f : Frame)
    (k : CryptoKey) (pos j : Nat)
    (hk : currentCryptoKey stE = some k)
    (hring : stD.keyRing = stE.keyRing)
    (hid : stD.currentKeyId = stE.currentKeyId)
    (hid256 : stE.currentKeyId < 256)
    (hbytes : ∀ b ∈ f.data, b < 256)
    (hlen : UNENCRYPTED_BYTES f.frameType ≤ f.data.length)
    (hpos_lo : UNENCRYPTED_BYTES f.frameType ≤ pos)
    (hpos_hi : pos < f.data.length + 16)
    (hj : j < 8) :
    decodeFunction stD (flipBit ((encodeFunction rand stE f).2.getD 0 f) pos j)
      = (stD, [flipBit ((encodeFunction rand stE f).2.getD 0 f) pos j]) := by
  have hone : 1 ≤ UNENCRYPTED_BYTES f.frameType := by
    cases hft : f.frameType <;> simp [UNENCRYPTED_BYTES]
  have hpos0 : 0 < f.data.length := by omega
  have hDk : currentCryptoKey stD = some k := by
    unfold currentCryptoKey at hk ⊢
    rw [hring, hid]
    exact hk
  rw [encodeFunction_ok rand stE f k hk hpos0 hlen]
  simp only [List.getD_cons_zero]
  set iv := (makeIV rand stE f.synchronizationSource f.timestamp).1 with hiv
  set H := f.data.take (UNENCRYPTED_BYTES f.frameType) with hHdef
  set pt0 := f.data.drop (UNENCRYPTED_BYTES f.frameType) with hpt0
  set C := aeadEncrypt k iv H pt0 with hCdef
  have hV : iv.length = 12 := makeIV_12 rand stE f.synchronizationSource f.timestamp
  have hHlen : H.length = UNENCRYPTED_BYTES f.frameType := by
    simp [hHdef, List.length_take, Nat.min_eq_left hlen]
  have hpt0len : pt0.length = f.data.length - UNENCRYPTED_BYTES f.frameType := by
    simp [hpt0]
  have hClen : C.length = pt0.length + 16 := aeadEncrypt_length k iv H pt0
  have hdata0 : encodedData k iv (stE.currentKeyId % 256) f
      = H ++ C ++ iv ++ [12, stE.currentKeyId % 256] := by
    simp [encodedData, IV_LENGTH, List.append_assoc, hHdef, hCdef, hpt0]
  set m := pos - H.length with hm
  have hmC : m < C.length := by omega
  have hflip : flipBit ({ f with data := encodedData k iv (stE.currentKeyId % 256) f }) pos j
      = { f with data := H ++ C.set m (C.getD m 0 ^^^ 2 ^ j) ++ iv
            ++ [12, stE.currentKeyId % 256] } := by
    simp only [flipBit, hdata0]
    have hre : H ++ C ++ iv ++ [12, stE.currentKeyId % 256]
        = H ++ (C ++ (iv ++ [12, stE.currentKeyId % 256])) := by
      simp [List.append_assoc]
    rw [hre]
    have hge : H.length ≤ pos := by omega
    rw [getD_append_right_gen H (C ++ (iv ++ [12, stE.currentKeyId % 256])) 0 pos hge]
    rw [getD_append_left_gen C (iv ++ [12, stE.currentKeyId % 256]) 0 (pos - H.length) hmC]
    rw [set_append_right_gen H (C ++ (iv ++ [12, stE.currentKeyId % 256])) _ pos hge]
    rw [set_append_left_gen C (iv ++ [12, stE.currentKeyId % 256]) _ (pos - H.length) hmC]
    simp [List.append_assoc]
  rw [hflip]
  set C2 := C.set m (C.getD m 0 ^^^ 2 ^ j) with hC2
  set g2 : Frame := { f with data := H ++ C2 ++ iv ++ [12, stE.currentKeyId % 256] } with hg2
  have hg2len : 0 < g2.data.length := by
    simp only [hg2, List.length_append, List.length_cons, List.length_nil]
    omega
  unfold decodeFunction
  rw [if_pos ⟨by rw [hDk]; rfl, hg2len⟩]
  have hkid : getKeyForId stD (stE.currentKeyId % 256) = some k := by
    unfold getKeyForId
    unfold currentCryptoKey at hk
    rw [Nat.mod_eq_of_lt hid256, hring]
    exact hk
  have hHg2 : H.length = UNENCRYPTED_BYTES g2.frameType := by
    simp [hg2, hHlen]
  rw [decodeTry_layout stD k g2 H C2 iv (stE.currentKeyId % 256) hHg2 hV rfl hkid]
  have hpt0lt : ∀ b ∈ pt0, b < 256 := by
    intro b hb
    exact hbytes b (List.drop_subset _ _ hb)
  have hdec : aeadDecrypt k iv H C2 = none := by
    rw [hC2, hCdef]
    exact aeadDecrypt_flip k iv H pt0 m j (by omega) hj hpt0lt
  rw [hdec]
  simp [Option.elim]


theorem decode_missing_key_part2 (st : E2EEManager) (f : Frame) (k : CryptoKey)
    (hk : currentCryptoKey st = some k)
    (h1 : UNENCRYPTED_BYTES f.frameType ≤ f.data.length)
    (h2 : 2 ≤ f.data.length)
    (h3 : f.data.getD (f.data.length - 2) 0 + 2 ≤ f.data.length)
    (hempty : st.keyRing.getD (f.data.getD (f.data.length - 1) 0) none = none) :
    decodeFunction st f = (st, [f]) := by
  unfold decodeFunction
  rw [if_pos ⟨by rw [hk]; rfl, by omega⟩]
  have hn1 : ¬ (UNENCRYPTED_BYTES f.frameType > f.data.length) := by omega
  have hn2 : ¬ (f.data.length < 2) := by omega
  have hn3 : ¬ (f.data.getD (f.data.length - 2) 0 + 2 > f.data.length) := by omega
  simp only [decodeTry, if_neg hn1, if_neg hn2, if_neg hn3, getKeyForId, hempty]


/-- A manager with a key at slot 0 but an empty slot 1. -/
def stB : E2EEManager :=
  { keyRing := [some kA, none], currentKeyId := 0, sendCounts := [], presharedKey := none }

/-- A 15-byte frame whose trailer names IV length 12 and key index 1
(an empty ring slot of `stB`). -/
def fB : Frame :=
  { synchronizationSource := 1, timestamp := 2, frameType := .undefined
    data := [9, 0, 0, 0, 0, 0, 0, 0, 0, 0, 0, 0, 0, 12, 1] }

/-- Claim C2 (amended): a frame whose ciphertext region has one bit
flipped fails authentication, and a frame whose trailer key index names
an empty ring slot fails key lookup; in both cases `decodeFunction`
does not decrypt the frame but does not drop it either — the error is
caught and the frame is forwarded unchanged, exactly one output frame
equal to the (tampered) input. -/
theorem decode_tamper_or_missing_key_forwards :
    (∀ (rand : Nat) (stE stD : E2EEManager) (f : Frame) (k : CryptoKey) (pos j : Nat),
      currentCryptoKey stE = some k →
      stD.keyRing = stE.keyRing →
      stD.currentKeyId = stE.currentKeyId →
      stE.currentKeyId < 256 →
      (∀ b ∈ f.data, b < 256) →
      UNENCRYPTED_BYTES f.frameType ≤ f.data.length →
      UNENCRYPTED_BYTES f.frameType ≤ pos →
      pos < f.data.length + 16 →
      j < 8 →
      decodeFunction stD (flipBit ((encodeFunction rand stE f).2.getD 0 f) pos j)
        = (stD, [flipBit ((encodeFunction rand stE f).2.getD 0 f) pos j])) ∧
    (∀ (st : E2EEManager) (f : Frame) (k : CryptoKey),
      currentCryptoKey st = some k →
      UNENCRYPTED_BYTES f.frameType ≤ f.data.length →
      2 ≤ f.data.length →
      f.data.getD (f.data.length - 2) 0 + 2 ≤ f.data.length →
      st.keyRing.getD (f.data.getD (f.data.length - 1) 0) none = none →
      decodeFunction st f = (st, [f])) := by
  constructor
  · intro rand stE stD f k pos j hk hring hid hid256 hbytes hlen hpos_lo hpos_hi hj
    exact decode_tamper_part1 rand stE stD f k pos j hk hring hid hid256 hbytes hlen
      hpos_lo hpos_hi hj
  · intro st f k hk h1 h2 h3 hempty
    exact decode_missing_key_part2 st f k hk h1 h2 h3 hempty

/-- Counterexample for C2 as stated: the claim says a tampered frame is
dropped (no output), but decoding the bit-flipped encode output at a
concrete manager still enqueues one frame. -/
theorem decode_tamper_counterexample :
    (decodeFunction stA (flipBit ((encodeFunction 0 stA fA).2.getD 0 fA) 1 0)).2 ≠ [] := by
  decide

/-- Witness for the amended C2 at concrete inputs: a flipped ciphertext
bit and an empty-slot key index both forward the frame unchanged. -/
theorem decode_tamper_or_missing_key_forwards_witness :
    decodeFunction stA (flipBit ((encodeFunction 0 stA fA).2.getD 0 fA) 1 0)
        = (stA, [flipBit ((encodeFunction 0 stA fA).2.getD 0 fA) 1 0]) ∧
      decodeFunction stB fB = (stB, [fB]) :=
  ⟨decode_tamper_or_missing_key_forwards.1 0 stA stA fA kA 1 0 (by decide) rfl rfl
      (by decide) (by decide) (by decide) (by decide) (by decide) (by decide),
    decode_tamper_or_missing_key_forwards.2 stB fB kA (by decide) (by decide) (by decide)
      (by decide) (by decide)⟩

/-- Claim C3 (amended): when a key is set, the payload is non-empty and
long enough to reach encryption, a rejected AES-GCM encrypt promise is
logged and the frame is dropped — the rejection handler deliberately
does not enqueue, so no output frame is produced (the send counter was
already advanced by `makeIV`). -/
theorem encode_aead_failure_drops (rand : Nat) (st : E2EEManager) (f : Frame)
    (k : CryptoKey) (hk : currentCryptoKey st = some k)
    (hne : 0 < f.data.length)
    (hlen : UNENCRYPTED_BYTES f.frameType ≤ f.data.length) :
    encodeFunctionWith subtleEncryptFail rand st f
      = ((makeIV rand st f.synchronizationSource f.timestamp).2, []) := by
  simp only [encodeFunctionWith, subtleEncryptFail, hk, if_pos hne,
    if_neg (show ¬ (UNENCRYPTED_BYTES f.frameType > f.data.length) from by omega)]

/-- Counterexample for C3 as stated: the claim says the frame is
forwarded unmodified on AEAD failure, but with a failing encrypt
provider no frame at all is enqueued at a concrete input. -/
theorem encode_aead_failure_counterexample :
    (encodeFunctionWith subtleEncryptFail 0 stA fA).2 ≠ [fA] := by
  decide

/-- Witness for the amended C3 at a concrete keyed manager and frame. -/
theorem encode_aead_failure_drops_witness :
    encodeFunctionWith subtleEncryptFail 0 stA fA
      = ((makeIV 0 stA fA.synchronizationSource fA.timestamp).2, []) :=
  encode_aead_failure_drops 0 stA fA kA (by decide) (by decide) (by decide)
